import Mathlib

/-!
A shallow embedding of `FENDatabase.py` (Chess-Recommendation-System).

Python strings are modelled as `List Char` (`PyStr`), line streams as
`List PyStr` (one element per `readline` result, terminator included;
end-of-stream is the empty list).  Fallible Python code (an unhandled
`ValueError`) is modelled with `Except Unit`.  The external python-chess
collaborator (`chess.Board`, `chess.pgn.read_game`, `Move.uci`) is
abstracted as a `ChessAPI` structure, per the spec's "Game Parser
(external capability)" contract.
-/

set_option autoImplicit false

namespace FENDb

/-- Model of a Python `str`: a list of characters. -/
abbrev PyStr := List Char

/-- Python `s.strip(chars)` for a character class `p`: remove the maximal run of
characters satisfying `p` from both ends. -/
def py_strip_chars (p : Char → Bool) (s : PyStr) : PyStr :=
  ((s.dropWhile p).reverse.dropWhile p).reverse

/-- Python `s.strip()` (default whitespace stripping). -/
def pyStrip (s : PyStr) : PyStr :=
  py_strip_chars Char.isWhitespace s

/-- Python `s.strip('"')`: surrounding quote characters removed. -/
def py_strip_quote (s : PyStr) : PyStr :=
  py_strip_chars (fun c => c == '"') s

/-- Python `s.isdigit()` (restricted to ASCII digits): nonempty and all
characters are digits. -/
def py_isdigit (s : PyStr) : Bool :=
  !s.isEmpty && s.all Char.isDigit

/-- Python `int(s)` on an all-digit string: positional value. -/
def py_int (s : PyStr) : Nat :=
  s.foldl (fun a c => a * 10 + (c.toNat - '0'.toNat)) 0

/-- Python `s.split(sep)` for a one-character separator: list of the
pieces between occurrences of `sep` (always nonempty). -/
def py_split (c : Char) : PyStr → List PyStr
  | [] => [[]]
  | x :: r =>
    let ps := py_split c r
    if x = c then [] :: ps else (x :: ps.headD []) :: ps.tail

/-- Python `url.split("/")[-1]`: the name computed in `download_file`
(line 72) and `main` (line 192) — local cache name and ledger key. -/
def url_basename (u : PyStr) : PyStr :=
  (py_split '/' u).getLastD []

/-- Python `s.split(" ", 1)` unpacked into two parts: `none` when the
string has no space (the `ValueError` case of line 96). -/
def split_once_space (s : PyStr) : Option (PyStr × PyStr) :=
  match s.dropWhile (fun c => !(c == ' ')) with
  | [] => none
  | _ :: b => some (s.takeWhile (fun c => !(c == ' ')), b)

/-- Python `line[1:-2]`: drop the leading bracket and the two final
characters (normally `]` and the newline), as in line 96 of the source. -/
def py_slice_1_m2 (l : PyStr) : PyStr :=
  (l.drop 1).dropLast.dropLast

/-- Python `line.startswith("[")`. -/
def starts_lbracket (l : PyStr) : Bool :=
  match l with
  | '[' :: _ => true
  | _ => false

/-- A game's tag mapping (`GameHeaderSet`); modelled as an association
list where the most recent assignment is at the head. -/
abbrev Headers := List (PyStr × PyStr)

/-- Python `headers[key] = val`: the newest binding shadows older ones. -/
def hset (k v : PyStr) (h : Headers) : Headers :=
  (k, v) :: h

/-- Python `headers.get(key)`. -/
def hget (h : Headers) (k : PyStr) : Option PyStr :=
  (h.find? (fun p => p.1 == k)).map Prod.snd

/-- The loop body of `read_headers_only` (source lines 89–98), with the
accumulated header mapping made explicit.  A tag line with no space
raises `ValueError` in Python, modelled as `Except.error ()`. -/
def read_headers_go (acc : Headers) : List PyStr → Except Unit (Headers × List PyStr)
  | [] => .ok (acc, [])
  | line :: rest =>
    if (pyStrip line).isEmpty then .ok (acc, rest)
    else if starts_lbracket line then
      match split_once_space (py_slice_1_m2 line) with
      | none => .error ()
      | some (k, v) => read_headers_go (hset k (py_strip_quote v) acc) rest
    else read_headers_go acc rest

/-- Source `read_headers_only(stream)` (lines 89–98): consume one game's
tag block, returning the header set and the remaining stream. -/
def read_headers_only (s : List PyStr) : Except Unit (Headers × List PyStr) :=
  read_headers_go [] s

/-- Source `skip_moves(stream)` (lines 100–104): consume lines through
the first blank line (or to end-of-stream); returns the rest. -/
def skip_moves : List PyStr → List PyStr
  | [] => []
  | line :: rest =>
    if (pyStrip line).isEmpty then rest else skip_moves rest

/-- Python truthiness of `headers.get(...)`: not `None` and nonempty. -/
def pyTruthy : Option PyStr → Bool
  | none => false
  | some s => !s.isEmpty

/-- Source `headers_pass(headers, min_elo)` (lines 106–116). -/
def headers_pass (headers : Headers) (min_elo : Int) : Bool :=
  let w := hget headers "WhiteElo".data
  let b := hget headers "BlackElo".data
  let e := hget headers "Event".data
  pyTruthy w && pyTruthy b &&
  py_isdigit (w.getD []) && py_isdigit (b.getD []) &&
  decide (min_elo ≤ (py_int (w.getD []) : Int)) &&
  decide (min_elo ≤ (py_int (b.getD []) : Int)) &&
  (e == some "Rated Classical game".data)

/-- The external python-chess collaborator (spec §4.7 "Game Parser" and
the board replay primitives used in source lines 149–158).  `read_game`
parses one game's movetext from the cursor and advances past it; the
field `read_game_le` records that a parser can only consume input, never
extend it (needed for termination of the draining loop, which in Python
terminates because the physical stream only shrinks). -/
structure ChessAPI where
  Board : Type
  Move : Type
  initBoard : Board
  push : Board → Move → Board
  fen : Board → PyStr
  uci : Move → PyStr
  read_game : List PyStr → List Move × List PyStr
  read_game_le : ∀ s, (read_game s).2.length ≤ s.length

/-- One CSV output row (`writer.writerow([...])`, source lines 152–157).
`result` is `headers.get("Result")` and is `none` when the tag is
missing (Python writes `None` as an empty field). -/
structure Row where
  game_id : Nat
  fen : PyStr
  move : PyStr
  result : Option PyStr
deriving DecidableEq, Repr

/-- The per-ply emission loop of `process_pgn_file` (source lines
151–158): for each mainline move, write a row carrying the board state
before the move, then push the move. -/
def emit_moves (api : ChessAPI) (gid : Nat) (res : Option PyStr) :
    api.Board → List api.Move → List Row
  | _, [] => []
  | b, m :: ms =>
    ⟨gid, api.fen b, api.uci m, res⟩ :: emit_moves api gid res (api.push b m) ms

/-- The observable outcome of one `process_pgn_file` call.  `game_id` is
the returned counter; `rows` the rows appended to the CSV; `gameIds`
the trace of ids assigned (one per game encountered, kept or skipped);
`rest` the unread remainder of the stream at return; `drained` whether
the loop ended via the empty-header break (end of archive) rather than
the `max_games` early return. -/
structure ProcResult where
  game_id : Nat
  rows : List Row
  gameIds : List Nat
  rest : List PyStr
  drained : Bool
deriving DecidableEq, Repr

/-- Python truthiness-guarded cap test `m and n >= m` (source lines 165
and 189, 214): `None` and `0` are falsy. -/
def py_cap (cap : Option Int) (n : Nat) : Bool :=
  match cap with
  | none => false
  | some m => !(m == 0) && decide (m ≤ (n : Int))

/-- The `while True` draining loop of `process_pgn_file` (source lines
140–166), with explicit fuel so that the definition is structurally
recursive (the Python loop terminates because each iteration consumes at
least one line of the finite stream; `process_pgn_file` below supplies
enough fuel for that argument, and fuel exhaustion — never reached from
`process_pgn_file` — is an `error`). -/
def process_go (api : ChessAPI) (min_elo : Int) (max_games : Option Int) :
    Nat → List PyStr → Nat → Except Unit ProcResult
  | 0, _, _ => .error ()
  | fuel + 1, stream, game_id =>
    match read_headers_only stream with
    | .error e => .error e
    | .ok (headers, rest) =>
      if headers.isEmpty then .ok ⟨game_id, [], [], rest, true⟩
      else
        let gid := game_id + 1
        let step : List Row × List PyStr :=
          if headers_pass headers min_elo then
            let pg := api.read_game rest
            (emit_moves api gid (hget headers "Result".data) api.initBoard pg.1, pg.2)
          else
            ([], skip_moves rest)
        if py_cap max_games gid then .ok ⟨gid, step.1, [gid], step.2, false⟩
        else
          match process_go api min_elo max_games fuel step.2 gid with
          | .error e => .error e
          | .ok r => .ok ⟨r.game_id, step.1 ++ r.rows, gid :: r.gameIds, r.rest, r.drained⟩

/-- Source `process_pgn_file` (lines 121–168) on the decompressed line
stream of one archive, starting the counter at `game_id`. -/
def process_pgn_file (api : ChessAPI) (min_elo : Int) (max_games : Option Int)
    (stream : List PyStr) (game_id : Nat) : Except Unit ProcResult :=
  process_go api min_elo max_games (stream.length + 1) stream game_id

/-- Source `load_processed_files(path)` (lines 36–40) on the ledger
file's character content: the set of stripped nonempty lines (membership
in the returned list models set membership). -/
def load_processed_files (content : PyStr) : List PyStr :=
  ((py_split '\n' content).map pyStrip).filter (fun l => !l.isEmpty)

/-- Source `mark_file_processed(path, name)` (lines 42–44): append one
newline-terminated filename to the ledger file. -/
def mark_file_processed (content name : PyStr) : PyStr :=
  content ++ name ++ ['\n']

/-- The character content of a ledger file built by successive
`mark_file_processed` calls on an initially empty file. -/
def ledger_content (names : List PyStr) : PyStr :=
  (names.map (fun n => n ++ ['\n'])).flatten

/-- Source `iter_pgn_urls` (lines 61–66) applied to the index's lines
(each line as delivered by `iter_lines`, i.e. without its terminator):
keep truthy lines ending in `.pgn.zst`, yielding their stripped form. -/
def iter_pgn_urls (index_lines : List PyStr) : List PyStr :=
  index_lines.filterMap (fun line =>
    if !line.isEmpty && List.isSuffixOf ".pgn.zst".data line then some (pyStrip line)
    else none)

/-- The observable outcome of one `main` run (source lines 173–217).
`downloads` lists the names fetched by `download_file`, `ledgered` the
names appended to the completion ledger, `removed` the local files
deleted by `os.remove`, `rows`/`gameIds` the concatenated per-archive
traces. -/
structure MainResult where
  game_id : Nat
  downloaded : Nat
  downloads : List PyStr
  ledgered : List PyStr
  removed : List PyStr
  rows : List Row
  gameIds : List Nat
deriving DecidableEq, Repr

/-- The `for url in iter_pgn_urls(...)` loop of `main` (source lines
188–215).  `archives` maps an archive filename to its decompressed line
stream (Download Manager + Decompression Adapter collaborators);
`processed` is the in-memory ledger set. -/
def main_loop (api : ChessAPI) (min_elo : Int) (max_games max_downloads : Option Int)
    (archives : PyStr → List PyStr) :
    List PyStr → List PyStr → Nat → Nat → Except Unit MainResult
  | _, [], game_id, downloaded => .ok ⟨game_id, downloaded, [], [], [], [], []⟩
  | processed, url :: rest, game_id, downloaded =>
    if py_cap max_downloads downloaded then .ok ⟨game_id, downloaded, [], [], [], [], []⟩
    else
      let name := url_basename url
      if name ∈ processed then main_loop api min_elo max_games max_downloads archives processed rest game_id downloaded
      else
        match process_pgn_file api min_elo max_games (archives name) game_id with
        | .error e => .error e
        | .ok r =>
          if py_cap max_games r.game_id then
            .ok ⟨r.game_id, downloaded + 1, [name], [name], [name], r.rows, r.gameIds⟩
          else
            match main_loop api min_elo max_games max_downloads archives (name :: processed) rest r.game_id (downloaded + 1) with
            | .error e => .error e
            | .ok res =>
              .ok ⟨res.game_id, res.downloaded, name :: res.downloads, name :: res.ledgered,
                   name :: res.removed, r.rows ++ res.rows, r.gameIds ++ res.gameIds⟩

/-- Modelled from the spec: "parse as non-negative integers" (§4.5) — a
tag value parses as a non-negative integer exactly when it is present,
nonempty and all digits, in which case its value is the positional
reading. -/
def parse_nonneg_int : Option PyStr → Option Nat
  | none => none
  | some s => if py_isdigit s then some (py_int s) else none

/-- Modelled from the spec: the header block is the run of lines "from
the current cursor … until a blank line or end-of-stream" (§4.4). -/
def header_block_spec : List PyStr → List PyStr
  | [] => []
  | l :: r => if (pyStrip l).isEmpty then [] else l :: header_block_spec r

/-- A well-formed bracket tag line `[Key "Value"]` with its newline. -/
def tag_line (k v : PyStr) : PyStr :=
  '[' :: ((((k ++ [' ', '"']) ++ v ++ ['"']) ++ [']']) ++ ['\n'])

/-- A small concrete instantiation of the external chess collaborator,
used to evaluate the pipeline on closed inputs: a board is the list of
moves played so far, `fen` renders it, `uci` is the move text itself,
and the parser returns a fixed mainline and advances the cursor past
the movetext block exactly like `skip_moves`. -/
def demoChess : ChessAPI where
  Board := List PyStr
  Move := PyStr
  initBoard := []
  push b m := b ++ [m]
  fen b := (b.map (fun m => m ++ [' '])).flatten
  uci m := m
  read_game s := ([['e', '2', 'e', '4'], ['e', '7', 'e', '5']], skip_moves s)
  read_game_le s := by
    induction s with
    | nil => simp [skip_moves]
    | cons l r ih =>
      simp only [skip_moves]
      split
      · simp
      · exact Nat.le_succ_of_le ih

/-- A game record that passes the rating/event filter (threshold 2200). -/
def gameA : List PyStr :=
  ["[WhiteElo \"2300\"]\n".data, "[BlackElo \"2250\"]\n".data,
   "[Event \"Rated Classical game\"]\n".data, "[Result \"1-0\"]\n".data,
   "\n".data, "1. e4 e5\n".data, "\n".data]

/-- A game record rejected by the filter (WhiteElo below 2200). -/
def gameB : List PyStr :=
  ["[WhiteElo \"1800\"]\n".data, "[BlackElo \"2250\"]\n".data,
   "[Event \"Rated Classical game\"]\n".data, "[Result \"0-1\"]\n".data,
   "\n".data, "1. d4\n".data, "\n".data]

/-- The header set of `gameA` as read by the scanner (newest first). -/
def hsA : Headers :=
  [("Result".data, "1-0".data), ("Event".data, "Rated Classical game".data),
   ("BlackElo".data, "2250".data), ("WhiteElo".data, "2300".data)]

/-- The header set of `gameB` as read by the scanner (newest first). -/
def hsB : Headers :=
  [("Result".data, "0-1".data), ("Event".data, "Rated Classical game".data),
   ("BlackElo".data, "2250".data), ("WhiteElo".data, "1800".data)]

/-- The fixed mainline returned by `demoChess.read_game`. -/
def movesD : List PyStr := [['e', '2', 'e', '4'], ['e', '7', 'e', '5']]

/-- The rows `process_pgn_file` emits for `gameA` under `demoChess`. -/
def rowsA : List Row :=
  [⟨1, [], ['e', '2', 'e', '4'], some "1-0".data⟩,
   ⟨1, ['e', '2', 'e', '4', ' '], ['e', '7', 'e', '5'], some "1-0".data⟩]

/-- The result of `process_pgn_file demoChess 2200 none gameA 0`. -/
def rA : ProcResult := ⟨1, rowsA, [1], [], true⟩

/-! ### Basic lemmas about the stream helpers -/

theorem skip_moves_length_le (s : List PyStr) : (skip_moves s).length ≤ s.length := by
  induction s with
  | nil => simp [skip_moves]
  | cons l r ih =>
    simp only [skip_moves]
    split
    · simp
    · exact Nat.le_succ_of_le ih

theorem read_headers_go_rest_le (s : List PyStr) : ∀ (acc hs : Headers) (rest : List PyStr),
    read_headers_go acc s = .ok (hs, rest) → rest.length ≤ s.length := by
  induction s with
  | nil =>
    intro acc hs rest h
    simp only [read_headers_go, Except.ok.injEq, Prod.mk.injEq] at h
    simp [← h.2]
  | cons l r ih =>
    intro acc hs rest h
    simp only [read_headers_go] at h
    split at h
    · simp only [Except.ok.injEq, Prod.mk.injEq] at h
      simp [← h.2, Nat.le_succ]
    · split at h
      · split at h
        · exact absurd h (by simp)
        · exact Nat.le_succ_of_le (ih _ _ _ h)
      · exact Nat.le_succ_of_le (ih _ _ _ h)

theorem read_headers_go_rest_eq_skip (s : List PyStr) : ∀ (acc hs : Headers) (rest : List PyStr),
    read_headers_go acc s = .ok (hs, rest) → rest = skip_moves s := by
  induction s with
  | nil =>
    intro acc hs rest h
    simp only [read_headers_go, Except.ok.injEq, Prod.mk.injEq] at h
    simp [skip_moves, ← h.2]
  | cons l r ih =>
    intro acc hs rest h
    simp only [read_headers_go] at h
    simp only [skip_moves]
    split at h
    · simp only [Except.ok.injEq, Prod.mk.injEq] at h
      rw [if_pos (by assumption)]
      exact h.2.symm
    · rw [if_neg (by assumption)]
      split at h
      · split at h
        · exact absurd h (by simp)
        · exact ih _ _ _ h
      · exact ih _ _ _ h

theorem read_headers_only_rest_lt (l : PyStr) (r : List PyStr) (hs : Headers) (rest : List PyStr)
    (h : read_headers_only (l :: r) = .ok (hs, rest)) : rest.length < (l :: r).length := by
  have hle : rest.length ≤ r.length := by
    simp only [read_headers_only, read_headers_go] at h
    split at h
    · simp only [Except.ok.injEq, Prod.mk.injEq] at h
      simp [← h.2]
    · split at h
      · split at h
        · exact absurd h (by simp)
        · exact read_headers_go_rest_le r _ _ _ h
      · exact read_headers_go_rest_le r _ _ _ h
  simpa using Nat.lt_succ_of_le hle

/-! ### Lemmas about the per-ply extractor -/

theorem emit_moves_game_id (api : ChessAPI) (gid : Nat) (res : Option PyStr) :
    ∀ (ms : List api.Move) (b : api.Board) (row : Row),
      row ∈ emit_moves api gid res b ms → row.game_id = gid := by
  intro ms
  induction ms with
  | nil => intro b row h; simp [emit_moves] at h
  | cons m ms ih =>
    intro b row h
    simp only [emit_moves, List.mem_cons] at h
    rcases h with h | h
    · simp [h]
    · exact ih _ _ h

theorem emit_moves_length (api : ChessAPI) (gid : Nat) (res : Option PyStr) :
    ∀ (ms : List api.Move) (b : api.Board), (emit_moves api gid res b ms).length = ms.length := by
  intro ms
  induction ms with
  | nil => intro b; simp [emit_moves]
  | cons m ms ih => intro b; simp [emit_moves, ih]

/-- The extractor's rows, characterized: pair each move with the board
state before it (the `scanl` of `push` from the given start board). -/
theorem emit_moves_eq_scanl (api : ChessAPI) (gid : Nat) (res : Option PyStr) :
    ∀ (ms : List api.Move) (b : api.Board),
      emit_moves api gid res b ms =
        ((List.scanl api.push b ms).zip ms).map
          (fun p => ⟨gid, api.fen p.1, api.uci p.2, res⟩) := by
  intro ms
  induction ms with
  | nil => intro b; simp [emit_moves, List.scanl_cons]
  | cons m ms ih =>
    intro b
    simp only [emit_moves, List.scanl_cons, List.singleton_append, List.zip_cons_cons,
      List.map_cons, List.cons.injEq]
    exact ⟨trivial, ih _⟩

/-! ### Invariants of the draining loop -/

/-- The ids assigned by one `process_pgn_file` call are consecutive from
`g + 1`, and the returned counter is the start plus the number of games
encountered. -/
theorem process_go_gameIds (api : ChessAPI) (min_elo : Int) (mg : Option Int) :
    ∀ (fuel : Nat) (s : List PyStr) (g : Nat) (r : ProcResult),
      process_go api min_elo mg fuel s g = .ok r →
      r.gameIds = List.range' (g + 1) r.gameIds.length ∧
      r.game_id = g + r.gameIds.length := by
  intro fuel
  induction fuel with
  | zero => intro s g r h; exact absurd h (by simp [process_go])
  | succ fuel ih =>
    intro s g r h
    simp only [process_go] at h
    split at h
    · exact absurd h (by simp)
    · split at h
      · simp only [Except.ok.injEq] at h
        simp [← h]
      · split at h
        · simp only [Except.ok.injEq] at h
          simp [← h, List.range']
        · split at h
          · exact absurd h (by simp)
          · rename_i r' heq
            simp only [Except.ok.injEq] at h
            obtain ⟨ih1, ih2⟩ := ih _ _ _ heq
            refine ⟨?_, ?_⟩
            · rw [← h]
              simp only [List.length_cons, List.range'_succ, List.cons.injEq]
              exact ⟨trivial, ih1⟩
            · rw [← h]
              simp only [List.length_cons]
              omega

/-- Every row emitted by the draining loop carries an id strictly above
the starting counter. -/
theorem process_go_rows_gt (api : ChessAPI) (min_elo : Int) (mg : Option Int) :
    ∀ (fuel : Nat) (s : List PyStr) (g : Nat) (r : ProcResult),
      process_go api min_elo mg fuel s g = .ok r →
      ∀ row ∈ r.rows, g < row.game_id := by
  intro fuel
  induction fuel with
  | zero => intro s g r h; exact absurd h (by simp [process_go])
  | succ fuel ih =>
    intro s g r h
    simp only [process_go] at h
    split at h
    · exact absurd h (by simp)
    · rename_i headers rest heq0
      split at h
      · simp only [Except.ok.injEq] at h
        intro row hrow
        rw [← h] at hrow
        simp at hrow
      · have hstep : ∀ row ∈ (if headers_pass headers min_elo then
              (emit_moves api (g + 1) (hget headers "Result".data) api.initBoard
                (api.read_game rest).1, (api.read_game rest).2)
            else ([], skip_moves rest)).1, row.game_id = g + 1 := by
          split
          · intro row hrow
            exact emit_moves_game_id api (g + 1) _ _ _ row hrow
          · intro row hrow
            simp at hrow
        split at h
        · simp only [Except.ok.injEq] at h
          intro row hrow
          rw [← h] at hrow
          have := hstep row hrow
          omega
        · split at h
          · exact absurd h (by simp)
          · rename_i r' heq
            simp only [Except.ok.injEq] at h
            intro row hrow
            rw [← h] at hrow
            simp only [List.mem_append] at hrow
            rcases hrow with hrow | hrow
            · have := hstep row hrow
              omega
            · have := ih _ _ _ heq row hrow
              omega

theorem range'_glue (g n m : Nat) :
    List.range' (g + 1) n ++ List.range' (g + n + 1) m = List.range' (g + 1) (n + m) := by
  have h := List.range'_append (g + 1) n m 1
  simp only [one_mul] at h
  rw [Nat.add_comm m n] at h
  rw [← h]
  congr 2
  omega

/-! ### Claim theorems -/

/-- C2.  Across one whole run of `main` (the loop of source lines
188–215, threading the counter through `process_pgn_file`), the ids
assigned to encountered games — kept or skipped — are exactly the
consecutive values `g+1, g+2, …`, with no gaps or repeats, and the final
counter is the start plus the number of games encountered. -/
theorem game_ids_contiguous (api : ChessAPI) (min_elo : Int) (mg md : Option Int)
    (archives : PyStr → List PyStr) :
    ∀ (urls processed : List PyStr) (g d : Nat) (res : MainResult),
      main_loop api min_elo mg md archives processed urls g d = .ok res →
      res.gameIds = List.range' (g + 1) res.gameIds.length ∧
      res.game_id = g + res.gameIds.length := by
  intro urls
  induction urls with
  | nil =>
    intro processed g d res h
    simp only [main_loop, Except.ok.injEq] at h
    simp [← h]
  | cons url rest ih =>
    intro processed g d res h
    simp only [main_loop] at h
    split at h
    · simp only [Except.ok.injEq] at h
      simp [← h]
    · split at h
      · exact ih _ _ _ _ h
      · split at h
        · exact absurd h (by simp)
        · rename_i r heq
          have hr := process_go_gameIds api min_elo mg _ _ _ _ heq
          split at h
          · simp only [Except.ok.injEq] at h
            rw [← h]
            exact hr
          · split at h
            · exact absurd h (by simp)
            · rename_i res' heq'
              obtain ⟨h1, h2⟩ := ih _ _ _ _ heq'
              obtain ⟨hr1, hr2⟩ := hr
              simp only [Except.ok.injEq] at h
              rw [← h]
              constructor
              · conv_lhs => rw [hr1, h1, hr2]
                simp only [List.length_append]
                exact range'_glue g _ _
              · simp only [List.length_append]
                omega

/-- C6.  Re-running against an already-fully-ledgered archive set: every
enumerated archive whose filename is in the ledger set is skipped with
no download, no processing, no new rows and no ledger writes. -/
theorem rerun_idempotent (api : ChessAPI) (min_elo : Int) (mg md : Option Int)
    (archives : PyStr → List PyStr) :
    ∀ (urls processed : List PyStr) (g d : Nat),
      (∀ u ∈ urls, url_basename u ∈ processed) →
      main_loop api min_elo mg md archives processed urls g d =
        .ok ⟨g, d, [], [], [], [], []⟩ := by
  intro urls
  induction urls with
  | nil => intro processed g d _; rfl
  | cons url rest ih =>
    intro processed g d hall
    simp only [main_loop]
    split
    · rfl
    · rw [if_pos (hall url (List.mem_cons_self url rest))]
      exact ih processed g d (fun u hu => hall u (List.mem_cons_of_mem url hu))

/-- C1 (amended).  When the `max_games` cap is hit by the end of an
archive's processing — including when `process_pgn_file` returned early
mid-archive — `main` still appends the archive's name to the completion
ledger and deletes its local file before stopping (source lines
208–215 run unconditionally after `process_pgn_file` returns). -/
theorem capped_archive_still_ledgered (api : ChessAPI) (min_elo : Int) (mg md : Option Int)
    (archives : PyStr → List PyStr) (processed urls : List PyStr) (url : PyStr)
    (g d : Nat) (r : ProcResult)
    (hgate : py_cap md d = false)
    (hnew : url_basename url ∉ processed)
    (hp : process_pgn_file api min_elo mg (archives (url_basename url)) g = .ok r)
    (hcap : py_cap mg r.game_id = true) :
    main_loop api min_elo mg md archives processed (url :: urls) g d =
      .ok ⟨r.game_id, d + 1, [url_basename url], [url_basename url],
           [url_basename url], r.rows, r.gameIds⟩ := by
  simp only [main_loop, hgate, process_pgn_file] at *
  rw [if_neg (by simp), if_neg hnew, hp]
  simp [hcap]

/-- C4.  A game whose header set fails `headers_pass` contributes no
output row (its movetext is skipped), yet consumes the next game id:
the id trace starts with `g + 1` while no emitted row of the whole call
carries `g + 1`. -/
theorem rejected_game_no_rows (api : ChessAPI) (min_elo : Int) (mg : Option Int)
    (s : List PyStr) (g : Nat) (hs : Headers) (rest : List PyStr) (r : ProcResult)
    (hh : read_headers_only s = .ok (hs, rest))
    (hne : hs.isEmpty = false)
    (hfail : headers_pass hs min_elo = false)
    (hr : process_pgn_file api min_elo mg s g = .ok r) :
    r.gameIds.head? = some (g + 1) ∧ ∀ row ∈ r.rows, row.game_id ≠ g + 1 := by
  simp only [process_pgn_file, process_go, hh, hne, hfail] at hr
  simp only [Bool.false_eq_true, if_false] at hr
  split at hr
  · simp only [Except.ok.injEq] at hr
    rw [← hr]
    exact ⟨rfl, by intro row hrow; simp at hrow⟩
  · split at hr
    · exact absurd hr (by simp)
    · rename_i r' heq
      simp only [Except.ok.injEq] at hr
      rw [← hr]
      refine ⟨rfl, ?_⟩
      intro row hrow
      simp only [List.nil_append] at hrow
      have := process_go_rows_gt api min_elo mg _ _ _ _ heq row hrow
      omega

/-- C5.  A kept game with mainline moves `moves` contributes exactly
`moves.length` rows, appended in ply order at the front of the
remaining output; each pairs the id `g + 1`, the encoding of the board
state before the ply (replayed by `push` from the standard initial
board, i.e. the `scanl` trace), the ply's canonical move text, and the
game's `Result` tag, constant across the game's rows. -/
theorem kept_game_rows (api : ChessAPI) (min_elo : Int) (mg : Option Int)
    (s : List PyStr) (g : Nat) (hs : Headers) (rest rest2 : List PyStr)
    (moves : List api.Move) (r : ProcResult)
    (hh : read_headers_only s = .ok (hs, rest))
    (hne : hs.isEmpty = false)
    (hpass : headers_pass hs min_elo = true)
    (hrg : api.read_game rest = (moves, rest2))
    (hr : process_pgn_file api min_elo mg s g = .ok r) :
    moves.length ≤ r.rows.length ∧
    r.rows.take moves.length =
      ((List.scanl api.push api.initBoard moves).zip moves).map
        (fun p => ⟨g + 1, api.fen p.1, api.uci p.2, hget hs "Result".data⟩) := by
  simp only [process_pgn_file, process_go, hh, hne, hpass, hrg] at hr
  simp only [Bool.false_eq_true, if_false, eq_self_iff_true, if_true] at hr
  split at hr
  · simp only [Except.ok.injEq] at hr
    rw [← hr]
    constructor
    · rw [emit_moves_length]
    · rw [← emit_moves_length api (g + 1) (hget hs "Result".data) moves api.initBoard,
        List.take_length]
      exact emit_moves_eq_scanl api (g + 1) _ moves api.initBoard
  · split at hr
    · exact absurd hr (by simp)
    · rename_i r' heq
      simp only [Except.ok.injEq] at hr
      rw [← hr]
      constructor
      · simp only [List.length_append]
        rw [emit_moves_length]
        omega
      · rw [← emit_moves_length api (g + 1) (hget hs "Result".data) moves api.initBoard,
          List.take_left]
        exact emit_moves_eq_scanl api (g + 1) _ moves api.initBoard

/-- C1 counterexample.  With `max_games = 1` and an archive holding two
games, `process_pgn_file` stops mid-archive (not drained, unread lines
left), yet `main` appends the archive to the completion ledger and
removes its local file — the archive is not left pending. -/
theorem stop_midarchive_still_ledgered_cex :
    (process_pgn_file demoChess 2200 (some 1) (gameB ++ gameB) 0).toOption.map
        (fun r => (r.drained, r.rest.isEmpty)) = some (false, false) ∧
    (main_loop demoChess 2200 (some 1) none (fun _ => gameB ++ gameB) []
          ["http://x/a.pgn.zst".data] 0 0).toOption.map
        (fun res => (res.ledgered, res.removed)) =
      some (["a.pgn.zst".data], ["a.pgn.zst".data]) := by
  decide

theorem capped_archive_still_ledgered_witness :
    main_loop demoChess 2200 (some 1) none (fun _ => gameB ++ gameB) []
        ["http://x/a.pgn.zst".data] 0 0 =
      .ok ⟨1, 1, ["a.pgn.zst".data], ["a.pgn.zst".data], ["a.pgn.zst".data], [], [1]⟩ := by
  exact capped_archive_still_ledgered demoChess 2200 (some 1) none (fun _ => gameB ++ gameB)
    [] [] "http://x/a.pgn.zst".data 0 0 ⟨1, [], [1], gameB, false⟩ rfl (by simp) rfl rfl

theorem game_ids_contiguous_witness :
    ([1, 2] : List Nat) = List.range' (0 + 1) ([1, 2] : List Nat).length ∧
    (2 : Nat) = 0 + ([1, 2] : List Nat).length := by
  exact game_ids_contiguous demoChess 2200 none none (fun _ => gameB ++ gameB)
    ["http://x/a.pgn.zst".data] [] 0 0
    ⟨2, 1, ["a.pgn.zst".data], ["a.pgn.zst".data], ["a.pgn.zst".data], [], [1, 2]⟩ rfl

theorem rejected_game_no_rows_witness :
    (⟨1, [], [1], [], true⟩ : ProcResult).gameIds.head? = some (0 + 1) ∧
    ∀ row ∈ (⟨1, [], [1], [], true⟩ : ProcResult).rows, row.game_id ≠ 0 + 1 := by
  exact rejected_game_no_rows demoChess 2200 none gameB 0 hsB ["1. d4\n".data, "\n".data]
    ⟨1, [], [1], [], true⟩ rfl rfl rfl rfl

theorem kept_game_rows_witness :
    movesD.length ≤ rA.rows.length ∧
    rA.rows.take movesD.length =
      ((List.scanl demoChess.push demoChess.initBoard movesD).zip movesD).map
        (fun p => ⟨0 + 1, demoChess.fen p.1, demoChess.uci p.2, hget hsA "Result".data⟩) := by
  exact kept_game_rows demoChess 2200 none gameA 0 hsA ["1. e4 e5\n".data, "\n".data] []
    movesD rA rfl rfl rfl rfl rfl

theorem rerun_idempotent_witness :
    main_loop demoChess 2200 none none (fun _ => gameA) ["a.pgn.zst".data]
        ["http://x/a.pgn.zst".data] 0 0 = .ok ⟨0, 0, [], [], [], [], []⟩ := by
  exact rerun_idempotent demoChess 2200 none none (fun _ => gameA)
    ["http://x/a.pgn.zst".data] ["a.pgn.zst".data] 0 0 (by decide)

theorem py_isdigit_not_empty (s : PyStr) (h : py_isdigit s = true) : s.isEmpty = false := by
  cases hs : s.isEmpty
  · rfl
  · simp [py_isdigit, hs] at h

/-- C3.  `headers_pass` holds exactly when both Elo tags are present and
parse as non-negative integers at least `min_elo`, and the `Event` tag
is the fixed literal; a missing or non-numeric Elo value refutes it.
(The truthiness tests in the source are subsumed by the digit tests.) -/
theorem headers_pass_iff (h : Headers) (m : Int) :
    headers_pass h m = true ↔
      ∃ wv bv : Nat,
        parse_nonneg_int (hget h "WhiteElo".data) = some wv ∧
        parse_nonneg_int (hget h "BlackElo".data) = some bv ∧
        m ≤ (wv : Int) ∧ m ≤ (bv : Int) ∧
        hget h "Event".data = some "Rated Classical game".data := by
  cases hw : hget h "WhiteElo".data with
  | none => simp [headers_pass, hw, pyTruthy, parse_nonneg_int]
  | some w =>
    cases hb : hget h "BlackElo".data with
    | none => simp [headers_pass, hw, hb, pyTruthy, parse_nonneg_int]
    | some b =>
      by_cases hdw : py_isdigit w = true
      · by_cases hdb : py_isdigit b = true
        · simp [headers_pass, hw, hb, pyTruthy, parse_nonneg_int, hdw, hdb,
            py_isdigit_not_empty w hdw, py_isdigit_not_empty b hdb,
            Bool.and_eq_true, beq_iff_eq, and_assoc]
        · simp [headers_pass, hw, hb, parse_nonneg_int, hdb]
      · simp [headers_pass, hw, hb, parse_nonneg_int, hdw]

/-! ### The completion ledger -/

theorem py_split_ne_nil (c : Char) (s : PyStr) : py_split c s ≠ [] := by
  cases s with
  | nil => simp [py_split]
  | cons x r =>
    simp only [py_split]
    split <;> simp

theorem py_split_append_cons (c : Char) (b : PyStr) : ∀ a : PyStr, c ∉ a →
    py_split c (a ++ c :: b) = a :: py_split c b := by
  intro a
  induction a with
  | nil => intro _; simp [py_split]
  | cons x a ih =>
    intro hc
    have hx : ¬x = c := fun e => hc (by simp [e])
    have hm : c ∉ a := fun hmem => hc (List.mem_cons_of_mem _ hmem)
    simp only [List.cons_append, py_split, List.append_eq]
    rw [if_neg hx, ih hm]
    simp

theorem pyStrip_nil : pyStrip [] = [] := rfl

theorem py_split_ledger (L : List PyStr) (h : ∀ n ∈ L, '\n' ∉ n) :
    py_split '\n' (ledger_content L) = L ++ [[]] := by
  induction L with
  | nil => simp [ledger_content, py_split]
  | cons n L ih =>
    have hstep : ledger_content (n :: L) = n ++ '\n' :: ledger_content L := by
      simp [ledger_content]
    rw [hstep, py_split_append_cons '\n' _ n (h n (List.mem_cons_self n L)),
      ih (fun x hx => h x (List.mem_cons_of_mem n hx))]
    rfl

theorem mem_load_ledger (L : List PyStr) (h : ∀ n ∈ L, '\n' ∉ n) (x : PyStr) :
    x ∈ load_processed_files (ledger_content L) ↔
      ∃ n ∈ L, pyStrip n = x ∧ x.isEmpty = false := by
  rw [load_processed_files, py_split_ledger L h]
  simp only [List.map_append, List.map_cons, List.map_nil, pyStrip_nil,
    List.filter_append, List.mem_append, List.mem_filter, List.mem_map]
  constructor
  · rintro (⟨⟨n, hn, hstr⟩, hne⟩ | habs)
    · exact ⟨n, hn, hstr, by simpa using hne⟩
    · simp [List.filter] at habs
  · rintro ⟨n, hn, hstr, hne⟩
    exact .inl ⟨⟨n, hn, hstr⟩, by simpa using hne⟩

/-- C7.  The ledger round-trips: `mark_file_processed` appends exactly
one newline-terminated filename, and `load_processed_files` rebuilds the
set by replaying the newline-delimited content, so after marking, the
loaded set holds the new name together with everything loaded before
(for names that are newline-free, already stripped, and nonempty, as
archive filenames are). -/
theorem ledger_roundtrip (names : List PyStr) (name x : PyStr)
    (hn : '\n' ∉ name) (hstr : pyStrip name = name) (hne : name ≠ [])
    (hprev : ∀ n ∈ names, '\n' ∉ n) :
    x ∈ load_processed_files (mark_file_processed (ledger_content names) name) ↔
      x ∈ load_processed_files (ledger_content names) ∨ x = name := by
  have hall : ∀ n ∈ names ++ [name], '\n' ∉ n := by
    intro n hmem
    rcases List.mem_append.mp hmem with h1 | h1
    · exact hprev n h1
    · simp only [List.mem_singleton] at h1
      rw [h1]; exact hn
  have hmark : mark_file_processed (ledger_content names) name =
      ledger_content (names ++ [name]) := by
    simp [mark_file_processed, ledger_content]
  rw [hmark, mem_load_ledger _ hall, mem_load_ledger _ hprev]
  constructor
  · rintro ⟨n, hmem, hstrip, hxne⟩
    rcases List.mem_append.mp hmem with h1 | h1
    · exact .inl ⟨n, h1, hstrip, hxne⟩
    · simp only [List.mem_singleton] at h1
      right
      rw [← hstrip, h1, hstr]
  · rintro (⟨n, h1, hstrip, hxne⟩ | hx)
    · exact ⟨n, List.mem_append_left _ h1, hstrip, hxne⟩
    · refine ⟨name, List.mem_append_right _ (by simp), by rw [hx, hstr], ?_⟩
      rw [hx]
      cases hE : name.isEmpty
      · rfl
      · exact absurd (by simpa using hE) hne

theorem ledger_roundtrip_witness :
    "b.pgn.zst".data ∈ load_processed_files
        (mark_file_processed (ledger_content ["a.pgn.zst".data]) "b.pgn.zst".data) ↔
      "b.pgn.zst".data ∈ load_processed_files (ledger_content ["a.pgn.zst".data]) ∨
        "b.pgn.zst".data = "b.pgn.zst".data := by
  exact ledger_roundtrip ["a.pgn.zst".data] "b.pgn.zst".data "b.pgn.zst".data
    (by decide) (by decide) (by decide) (by decide)

/-! ### The header scanner -/

theorem read_headers_go_empty_iff (s : List PyStr) : ∀ (acc hs : Headers) (rest : List PyStr),
    read_headers_go acc s = .ok (hs, rest) →
    (hs = [] ↔ (acc = [] ∧ (header_block_spec s).all (fun l => !starts_lbracket l) = true)) := by
  induction s with
  | nil =>
    intro acc hs rest h
    simp only [read_headers_go, Except.ok.injEq, Prod.mk.injEq] at h
    simp [header_block_spec, ← h.1]
  | cons l r ih =>
    intro acc hs rest h
    simp only [read_headers_go] at h
    split at h
    · rename_i hblank
      simp only [Except.ok.injEq, Prod.mk.injEq] at h
      simp [header_block_spec, hblank, ← h.1]
    · rename_i hblank
      split at h
      · rename_i hbr
        split at h
        · exact absurd h (by simp)
        · rename_i kv hkv
          rw [ih _ _ _ h]
          simp [hset, header_block_spec, hblank, hbr]
      · rename_i hbr
        rw [ih _ _ _ h]
        simp [header_block_spec, hblank, hbr]

theorem takeWhile_all_append (p : Char → Bool) (y : Char) (b : PyStr) (hy : p y = false) :
    ∀ a : PyStr, (∀ x ∈ a, p x = true) → (a ++ y :: b).takeWhile p = a := by
  intro a
  induction a with
  | nil => intro _; simp [List.takeWhile_cons, hy]
  | cons x a ih =>
    intro ha
    simp only [List.cons_append, List.takeWhile_cons, ha x (List.mem_cons_self x a), if_true]
    rw [ih (fun z hz => ha z (List.mem_cons_of_mem x hz))]

theorem dropWhile_all_append (p : Char → Bool) (y : Char) (b : PyStr) (hy : p y = false) :
    ∀ a : PyStr, (∀ x ∈ a, p x = true) → (a ++ y :: b).dropWhile p = y :: b := by
  intro a
  induction a with
  | nil => intro _; simp [List.dropWhile_cons, hy]
  | cons x a ih =>
    intro ha
    simp only [List.cons_append, List.dropWhile_cons, ha x (List.mem_cons_self x a), if_true]
    exact ih (fun z hz => ha z (List.mem_cons_of_mem x hz))

theorem dropWhile_head_false (p : Char → Bool) (l : PyStr) (x : Char)
    (hh : l.head? = some x) (hx : p x = false) : l.dropWhile p = l := by
  cases l with
  | nil => simp at hh
  | cons a t =>
    simp only [List.head?_cons, Option.some.injEq] at hh
    rw [hh]
    simp [List.dropWhile_cons, hx]

theorem split_once_space_mid (k w : PyStr) (hk : ' ' ∉ k) :
    split_once_space (k ++ ' ' :: w) = some (k, w) := by
  have hall : ∀ x ∈ k, (!(x == ' ')) = true := by
    intro x hx
    simp only [Bool.not_eq_true', beq_eq_false_iff_ne, ne_eq]
    intro e
    exact hk (e ▸ hx)
  have hsp : (!(' ' == ' ')) = false := by decide
  simp only [split_once_space, dropWhile_all_append _ ' ' w hsp k hall,
    takeWhile_all_append _ ' ' w hsp k hall]

theorem strip_quote_wrap (v : PyStr) (h1 : v.head? ≠ some '"')
    (h2 : v.getLast? ≠ some '"') : py_strip_quote ('"' :: v ++ ['"']) = v := by
  cases v with
  | nil => rfl
  | cons c t =>
    have hc : (c == '"') = false := by
      simp only [List.head?_cons, ne_eq, Option.some.injEq] at h1
      simpa using h1
    have hq : ('"' == '"') = true := by decide
    simp only [py_strip_quote, py_strip_chars, List.cons_append, List.dropWhile_cons, hq,
      if_true, hc, Bool.false_eq_true, if_false]
    have hrev : ((c :: (t ++ ['"'])) : PyStr).reverse = '"' :: (t.reverse ++ [c]) := by
      simp
    rw [hrev]
    simp only [List.dropWhile_cons, hq, if_true]
    have hdrop : (t.reverse ++ [c]).dropWhile (fun x => x == '"') = t.reverse ++ [c] := by
      cases ht : t.reverse with
      | nil => simp [List.dropWhile_cons, hc]
      | cons d t2 =>
        refine dropWhile_head_false _ _ d (by simp [ht]) ?_
        have hd : ((c :: t : PyStr)).getLast? = some d := by
          rw [← List.head?_reverse]
          simp [ht]
        have hne : ¬d = '"' := fun e => h2 (by rw [hd, e])
        simpa using hne
    rw [hdrop]
    simp

theorem slice_tag_line (k v : PyStr) :
    py_slice_1_m2 (tag_line k v) = (k ++ [' ', '"']) ++ v ++ ['"'] := by
  simp only [tag_line, py_slice_1_m2, List.drop_one, List.tail_cons]
  rw [List.dropLast_concat, List.dropLast_concat]

theorem pyStrip_tag_line_ne (k v : PyStr) : (pyStrip (tag_line k v)).isEmpty = false := by
  have hw : Char.isWhitespace '[' = false := by decide
  simp only [pyStrip, py_strip_chars, tag_line, List.dropWhile_cons, hw, Bool.false_eq_true,
    if_false]
  rw [Bool.eq_false_iff]
  intro htrue
  rw [List.isEmpty_iff, List.reverse_eq_nil_iff, List.dropWhile_eq_nil_iff] at htrue
  have := htrue '[' (by simp)
  rw [hw] at this
  exact Bool.false_ne_true this

theorem read_headers_only_tag (k v : PyStr) (hk : ' ' ∉ k)
    (h1 : v.head? ≠ some '"') (h2 : v.getLast? ≠ some '"') :
    read_headers_only [tag_line k v] = .ok ([(k, v)], []) := by
  have hsplit : split_once_space (py_slice_1_m2 (tag_line k v)) =
      some (k, '"' :: v ++ ['"']) := by
    rw [slice_tag_line]
    have heq : ((k ++ [' ', '"']) ++ v ++ ['"'] : PyStr) = k ++ ' ' :: ('"' :: v ++ ['"']) := by
      simp
    rw [heq]
    exact split_once_space_mid k _ hk
  have hbr : starts_lbracket (tag_line k v) = true := rfl
  simp only [read_headers_only, read_headers_go, pyStrip_tag_line_ne k v, Bool.false_eq_true,
    if_false, hbr, if_true, hsplit, hset, strip_quote_wrap v h1 h2]

/-- C8.  The header scanner: (a) on success its cursor lands exactly
where the movetext skipper's would — just past the first blank line (or
at end-of-stream); (b) the result is empty exactly when the consumed
block holds no bracket-tagged line; (c) a well-formed tag line
`[Key "Value"]` is split with the key being the token before the first
space and the value the quoted remainder with its surrounding quote
characters removed. -/
theorem read_headers_only_spec :
    (∀ (s : List PyStr) (hs : Headers) (rest : List PyStr),
        read_headers_only s = .ok (hs, rest) →
        rest = skip_moves s ∧
        (hs = [] ↔ (header_block_spec s).all (fun l => !starts_lbracket l) = true)) ∧
    (∀ k v : PyStr, ' ' ∉ k → v.head? ≠ some '"' → v.getLast? ≠ some '"' →
        read_headers_only [tag_line k v] = .ok ([(k, v)], [])) := by
  constructor
  · intro s hs rest h
    refine ⟨read_headers_go_rest_eq_skip s [] hs rest h, ?_⟩
    have hiff := read_headers_go_empty_iff s [] hs rest h
    simpa using hiff
  · exact read_headers_only_tag

theorem read_headers_only_spec_witness :
    (["1. e4 e5\n".data, "\n".data] = skip_moves gameA ∧
      (hsA = [] ↔ (header_block_spec gameA).all (fun l => !starts_lbracket l) = true)) ∧
    read_headers_only [tag_line "Site".data "lichess".data] =
      .ok ([("Site".data, "lichess".data)], []) := by
  exact ⟨read_headers_only_spec.1 gameA hsA ["1. e4 e5\n".data, "\n".data] rfl,
    read_headers_only_spec.2 "Site".data "lichess".data (by decide) (by decide) (by decide)⟩

/-- C10.  The header scanner is not total over malformed tag lines: a
line starting with `[` and holding no space (here `[Key]`) makes the
two-way split of `line[1:-2]` fail, so `read_headers_only` raises
(`ValueError` in Python, `error` here) instead of returning a header
set or skipping the line. -/
theorem read_headers_only_malformed_tag :
    read_headers_only ["[Key]\n".data] = .error () := by
  rfl

/-! ### The archive enumerator and filename derivation -/

theorem filterMap_guard (q : PyStr → Bool) (f : PyStr → PyStr) : ∀ ls : List PyStr,
    ls.filterMap (fun l => if q l then some (f l) else none) = (ls.filter q).map f := by
  intro ls
  induction ls with
  | nil => rfl
  | cons l ls ih =>
    by_cases h : q l = true
    · simp [List.filterMap_cons, List.filter_cons, h, ih]
    · simp [List.filterMap_cons, List.filter_cons, h, ih]

theorem py_split_modifyHead_getLastD (c : Char) : ∀ (r : PyStr) (a : PyStr),
    ((py_split c r).modifyHead (fun p => a ++ p)).getLastD [] =
      r.foldl (fun acc ch => if ch = c then [] else acc ++ [ch]) a := by
  intro r
  induction r with
  | nil => intro a; simp [py_split, List.modifyHead]
  | cons x r ih =>
    intro a
    obtain ⟨hd, tl, hps⟩ := List.exists_cons_of_ne_nil (py_split_ne_nil c r)
    simp only [py_split, List.foldl_cons]
    by_cases hx : x = c
    · rw [if_pos hx]
      have h1 : (([] :: py_split c r).modifyHead fun p => a ++ p) = a :: py_split c r := by
        simp [List.modifyHead]
      rw [h1]
      have h2 := ih []
      have h3 : ((py_split c r).modifyHead fun p => [] ++ p) = py_split c r := by
        rw [hps]
        simp [List.modifyHead]
      rw [h3] at h2
      rw [List.getLastD_cons, hps, List.getLastD_cons]
      rw [hps, List.getLastD_cons] at h2
      rw [h2, if_pos hx]
    · rw [if_neg hx]
      rw [hps]
      have h1 : (((x :: (hd :: tl).headD []) :: (hd :: tl).tail).modifyHead fun p => a ++ p) =
          ((a ++ [x]) ++ hd) :: tl := by
        simp [List.modifyHead]
      rw [h1]
      have h2 := ih (a ++ [x])
      rw [hps] at h2
      have h3 : (((hd :: tl) : List PyStr).modifyHead fun p => (a ++ [x]) ++ p) =
          ((a ++ [x]) ++ hd) :: tl := by
        simp [List.modifyHead]
      rw [h3] at h2
      rw [h2, if_neg hx]

theorem url_basename_foldl (u : PyStr) :
    url_basename u = u.foldl (fun acc ch => if ch = '/' then [] else acc ++ [ch]) [] := by
  have h := py_split_modifyHead_getLastD '/' u []
  have h3 : ((py_split '/' u).modifyHead fun p => [] ++ p) = py_split '/' u := by
    obtain ⟨hd, tl, hps⟩ := List.exists_cons_of_ne_nil (py_split_ne_nil '/' u)
    rw [hps]
    simp [List.modifyHead]
  rw [h3] at h
  exact h

theorem foldl_seg_eq_takeWhile (c : Char) (s : PyStr) :
    s.foldl (fun acc ch => if ch = c then [] else acc ++ [ch]) [] =
      (s.reverse.takeWhile (fun ch => !(ch == c))).reverse := by
  induction s using List.reverseRecOn with
  | nil => rfl
  | append_singleton t x ih =>
    rw [List.foldl_append, List.foldl_cons, List.foldl_nil]
    by_cases hx : x = c
    · simp [hx, List.takeWhile_cons]
    · simp [hx, List.takeWhile_cons, ih]

/-- C9 counterexample.  An index line carrying leading whitespace ends
in the recognized suffix yet the enumerator yields its stripped form,
which is not that index line: the enumerator does not yield the index
lines themselves. -/
theorem iter_pgn_urls_strip_cex :
    List.isSuffixOf ".pgn.zst".data " a.pgn.zst".data = true ∧
    iter_pgn_urls [" a.pgn.zst".data] = ["a.pgn.zst".data] ∧
    (["a.pgn.zst".data] : List PyStr) ≠ [" a.pgn.zst".data] := by
  decide

/-- C9 (amended).  The enumerator yields, in index order, the stripped
forms of exactly the nonempty index lines ending in `.pgn.zst` (the
identity on lines without surrounding whitespace); and the filename
used as local cache name and ledger key (`url.split("/")[-1]`) is the
final path segment of the URL — the characters after its last `/`. -/
theorem iter_pgn_urls_spec :
    (∀ index_lines : List PyStr,
        iter_pgn_urls index_lines =
          (index_lines.filter
            (fun l => !l.isEmpty && List.isSuffixOf ".pgn.zst".data l)).map pyStrip) ∧
    (∀ u : PyStr, url_basename u = (u.reverse.takeWhile (fun ch => !(ch == '/'))).reverse) := by
  constructor
  · intro ls
    exact filterMap_guard (fun l => !l.isEmpty && List.isSuffixOf ".pgn.zst".data l) pyStrip ls
  · intro u
    rw [url_basename_foldl, foldl_seg_eq_takeWhile]

theorem headers_pass_iff_witness :
    headers_pass hsA 2200 = true ↔
      ∃ wv bv : Nat,
        parse_nonneg_int (hget hsA "WhiteElo".data) = some wv ∧
        parse_nonneg_int (hget hsA "BlackElo".data) = some bv ∧
        (2200 : Int) ≤ (wv : Int) ∧ (2200 : Int) ≤ (bv : Int) ∧
        hget hsA "Event".data = some "Rated Classical game".data :=
  headers_pass_iff hsA 2200

theorem iter_pgn_urls_spec_witness :
    iter_pgn_urls ["http://x/a.pgn.zst".data] =
      ((["http://x/a.pgn.zst".data] : List PyStr).filter
        (fun l => !l.isEmpty && List.isSuffixOf ".pgn.zst".data l)).map pyStrip ∧
    url_basename "http://x/a.pgn.zst".data =
      (("http://x/a.pgn.zst".data : PyStr).reverse.takeWhile (fun ch => !(ch == '/'))).reverse :=
  ⟨iter_pgn_urls_spec.1 ["http://x/a.pgn.zst".data],
   iter_pgn_urls_spec.2 "http://x/a.pgn.zst".data⟩

end FENDb
